import Mathlib

/-!
Shallow embedding of the executive-enrichment pipeline
(main.py, src/utils.py, src/services/ranker.py, src/services/domains.py,
src/services/emails.py, src/services/pipeline.py).

Python strings are modelled as `String` / `List Char`; `None` / `NaN` inputs
as `Option`.  The Python string and regex primitives the code uses are
modelled for the ASCII range the data exercises (all input is transliterated
to ASCII by `unidecode` before any case- or word-boundary-sensitive step).
-/

namespace Exec

/-- Python regex word character `\w` (ASCII model: letters, digits, underscore). -/
def isWordChar (c : Char) : Bool := c.isAlphanum || c == '_'

/-- Whitespace stripped by Python `str.strip()` / split by `str.split()` (ASCII model). -/
def isPySpace (c : Char) : Bool :=
  c == ' ' || c == '\t' || c == '\n' || c == '\r' || c == '\x0b' || c == '\x0c'

/-- ASCII model of Python `str.lower` on one character; non-ASCII characters
are left unchanged (the pipeline lowercases only post-`unidecode` ASCII text). -/
def pyLowerChar (c : Char) : Char :=
  match c with
  | 'A' => 'a' | 'B' => 'b' | 'C' => 'c' | 'D' => 'd' | 'E' => 'e' | 'F' => 'f' | 'G' => 'g'
  | 'H' => 'h' | 'I' => 'i' | 'J' => 'j' | 'K' => 'k' | 'L' => 'l' | 'M' => 'm' | 'N' => 'n'
  | 'O' => 'o' | 'P' => 'p' | 'Q' => 'q' | 'R' => 'r' | 'S' => 's' | 'T' => 't' | 'U' => 'u'
  | 'V' => 'v' | 'W' => 'w' | 'X' => 'x' | 'Y' => 'y' | 'Z' => 'z'
  | c => c

/-- Python `str.lower`. -/
def pyLower (l : List Char) : List Char := l.map pyLowerChar

/-- Python `str.strip()`. -/
def pyStrip (l : List Char) : List Char :=
  ((l.dropWhile isPySpace).reverse.dropWhile isPySpace).reverse

/-- Python substring containment `needle in hay`. -/
def substrIn (needle hay : List Char) : Bool :=
  (List.range (hay.length + 1)).any fun i => needle.isPrefixOf (hay.drop i)

/-- Model of `unidecode.unidecode` on one character, restricted to the
characters this development exercises: ASCII is mapped to itself, the few
non-ASCII characters that occur follow the library's transliteration table
(acute-accented e folds to `e`, the em-dash expands to `--`), and characters
outside the table are left unchanged (no claim exercises them). -/
def unidecodeChar (c : Char) : List Char :=
  if c.toNat < 128 then [c]
  else if c == 'é' then ['e']
  else if c == '—' then ['-', '-']
  else [c]

/-- Model of `unidecode` over a whole string. -/
def unidecodeList (l : List Char) : List Char := l.flatMap unidecodeChar

namespace StringUtils

/-- The placeholder list literally written in src/utils.py:
`["â€”", "-", ""]`.  Its first entry is the three-character mojibake
rendering of an em-dash, not the em-dash itself. -/
def placeholders : List (List Char) := ["â€”".data, "-".data, "".data]

/-- Embeds `StringUtils.sanitize` (src/utils.py).  `none` models `None`/`NaN`
input (`pd.isna`). -/
def sanitize (text : Option String) : String :=
  match text with
  | none => ""
  | some s =>
      if placeholders.contains (pyStrip s.data) then ""
      else ⟨pyStrip (unidecodeList s.data)⟩

end StringUtils

/-- Embeds `HierarchyRule` (src/models.py); the same record backs the raw config
dicts used by main.py. -/
structure HierarchyRule where
  level : Nat
  name : String
  keywords : List String

/-- Model of the call sorting rules by level in both constructors: Python
sorts stably ascending, modelled by the stable `List.insertionSort`. -/
def sortRules (rules : List HierarchyRule) : List HierarchyRule :=
  List.insertionSort (fun a b => a.level ≤ b.level) rules

/-- Model of the per-rule keyword test (substring containment of any keyword),
the hierarchy-rule scan shared by
both ranker implementations. -/
def ruleMatches (t : List Char) (r : HierarchyRule) : Bool :=
  r.keywords.any fun k => substrIn k.data t

namespace RankerEngine

/-- Is the (optional) character a word character?  (Absent ⇒ no.) -/
def optIsWord : Option Char → Bool
  | some c => isWordChar c
  | none => false

/-- Regex `\b`: a word boundary at position `i` of `t` (positions run from
`0` to `t.length`). -/
def wordBoundary (t : List Char) (i : Nat) : Bool :=
  (decide (0 < i) && optIsWord (t.get? (i - 1))) != optIsWord (t.get? i)

/-- Model of `re.search` of the pattern `\b(k₁|…|kₙ)\b` (IGNORECASE) compiled in
`RankerEngine.__init__` from the literal exclusion keywords: some
alternative matches at some position with a word boundary on each side.
`'|'.join` of an empty keyword list produces `\b()\b`, whose single
alternative is the empty string; IGNORECASE is modelled by lowercasing the
keyword (the searched text is already lowercased). -/
def excludeSearch (exclusions : List String) (t : List Char) : Bool :=
  let alts : List (List Char) :=
    if exclusions.isEmpty then [[]] else exclusions.map fun k => pyLower k.data
  (List.range (t.length + 1)).any fun i =>
    alts.any fun k =>
      k.isPrefixOf (t.drop i) && wordBoundary t i && wordBoundary t (i + k.length)

/-- Embeds `RankerEngine.assess_seniority` (src/services/ranker.py), with the
constructor's rule sorting and regex compilation inlined. -/
def assess_seniority (rules : List HierarchyRule) (exclusions : List String)
    (title : String) : Nat :=
  let t := pyLower title.data
  if excludeSearch exclusions t then 999
  else
    match (sortRules rules).find? (ruleMatches t) with
    | some r => r.level
    | none => 999

end RankerEngine

namespace RankerService

/-- Embeds `RankerService.get_rank` (main.py), with the constructor rule sorting
and exclusion-keyword lowercasing inlined; `none` models a `NaN` title. -/
def get_rank (rules : List HierarchyRule) (exclusions : List String)
    (title : Option String) : Nat :=
  match title with
  | none => 999
  | some s =>
      let t := pyStrip (pyLower s.data)
      if (exclusions.map fun k => pyLower k.data).any (fun e => substrIn e t) then 999
      else
        match (sortRules rules).find? (ruleMatches t) with
        | some r => r.level
        | none => 999

end RankerService

/-- Characters kept by `re.sub(r"[^a-z0-9]", "", c)`. -/
def isLowerAlnum (c : Char) : Bool := ('a' ≤ c && c ≤ 'z') || ('0' ≤ c && c ≤ '9')

/-- Scan for the first `)` on the current line (regex `.` does not cross a
newline) and return the suffix after it.  Helper for `re.sub(r"\(.*?\)", "", c)`. -/
def afterRParen : List Char → Option (List Char)
  | [] => none
  | c :: rest =>
      if c == ')' then some rest
      else if c == '\n' then none
      else afterRParen rest

/-- Model of `re.sub(r"\(.*?\)", "", c)`: scanning left to right, each `(` is deleted
together with everything up to the nearest `)` on the same line (a `(` with
no such `)` is kept).  `fuel` only bounds the recursion depth (keeping the
recursion structural); every step consumes at least one character, so
`l.length` fuel always suffices. -/
def stripParensAux (fuel : Nat) (l : List Char) : List Char :=
  match fuel, l with
  | _, [] => []
  | 0, l => l
  | fuel + 1, c :: rest =>
      if c == '(' then
        match afterRParen rest with
        | some after => stripParensAux fuel after
        | none => c :: stripParensAux fuel rest
      else c :: stripParensAux fuel rest

/-- Model of `re.sub(r"\(.*?\)", "", c)`. -/
def stripParens (l : List Char) : List Char := stripParensAux l.length l

/-- The alternatives of the pattern
`\b(inc|ltd|llc|corp|corporation|company|group|labs)\b`, in source order
(`self.legal_strip` in both resolver classes). -/
def legalKws : List (List Char) :=
  ["inc".data, "ltd".data, "llc".data, "corp".data, "corporation".data,
   "company".data, "group".data, "labs".data]

/-- The alternative (if any) matching at the head of `l` with the trailing
`\b` satisfied.  All alternatives are word-character literals, so the
trailing boundary holds exactly when the next character is absent or not a
word character; the leading boundary is tracked by the caller. -/
def legalAt (l : List Char) : Option (List Char) :=
  legalKws.find? fun k =>
    k.isPrefixOf l &&
      (match l.drop k.length with
       | [] => true
       | d :: _ => !isWordChar d)

/-- Model of the legal-suffix substitution: remove every word-boundary-delimited occurrence
of a legal suffix, scanning left to right.  `prevWord` records whether the
character before the current position is a word character (in which case no
match can start here, the leading `\b` failing). -/
def stripLegalAux (fuel : Nat) (prevWord : Bool) (l : List Char) : List Char :=
  match fuel, l with
  | _, [] => []
  | 0, l => l
  | fuel + 1, c :: rest =>
      match (if prevWord then none else legalAt (c :: rest)) with
      | some k => stripLegalAux fuel true (rest.drop (k.length - 1))
      | none => c :: stripLegalAux fuel (isWordChar c) rest

/-- Model of the legal-suffix substitution from position 0 (which is a leading boundary
whenever a word character follows).  As in `stripParens`, the fuel
`l.length` only keeps the recursion structural and always suffices. -/
def stripLegal (l : List Char) : List Char := stripLegalAux l.length false l

/-- Model of the already-a-domain test: the string ends in one of the
recognized domain suffixes. -/
def endsWithTld (s : List Char) : Bool :=
  [".ai", ".io", ".com", ".net", ".org"].any fun suf => String.data suf |>.isSuffixOf s

/-- Python `dict` lookup with exact string keys. -/
def lookupMap (m : List (String × String)) (k : String) : Option String :=
  (m.find? fun p => p.1 == k).map fun p => p.2

namespace DomainResolver

/-- Model of the TODO fallback: the lowercased name with spaces removed plus
".com", used when the value of a mapping entry contains `"TODO"`. -/
def todoFallback (clean : String) : String :=
  ⟨(pyLower clean.data).filter fun c => c != ' '⟩ ++ ".com"

/-- The heuristic tail, identical in src/services/domains.py and main.py:
already-a-domain bypass, else lowercase, strip parentheticals, strip legal
suffixes, keep only `[a-z0-9]`, append `.com`. -/
def heuristic (clean : String) : String :=
  if endsWithTld (pyLower clean.data) then ⟨pyLower clean.data⟩
  else ⟨(stripLegal (stripParens (pyLower clean.data))).filter isLowerAlnum⟩ ++ ".com"

/-- Embeds `DomainResolver.resolve` (src/services/domains.py). -/
def resolve (mappings : List (String × String)) (company : Option String) : String :=
  let clean := StringUtils.sanitize company
  match lookupMap mappings clean with
  | some val => if substrIn "TODO".data val.data then todoFallback clean else val
  | none => heuristic clean

end DomainResolver

namespace DomainService

/-- Embeds `DomainService.resolve` (main.py): `NaN` short-circuits to the sentinel;
otherwise the company is unidecoded and stripped (with no placeholder
filtering), looked up (with no TODO check), then falls through to the same
heuristic as `DomainResolver`. -/
def resolve (mappings : List (String × String)) (company : Option String) : String :=
  match company with
  | none => "unknown.com"
  | some s =>
      let clean : String := ⟨pyStrip (unidecodeList s.data)⟩
      match lookupMap mappings clean with
      | some val => val
      | none => DomainResolver.heuristic clean

end DomainService

/-- Python `str.replace(pat, rep)` scanning left to right (helper, non-empty
`pat`); `fuel` keeps the recursion structural, `s.length` always suffices. -/
def pyReplaceAux (pat rep : List Char) (fuel : Nat) (s : List Char) : List Char :=
  match fuel, s with
  | _, [] => []
  | 0, s => s
  | fuel + 1, c :: rest =>
      if pat.isPrefixOf (c :: rest) then
        rep ++ pyReplaceAux pat rep fuel (rest.drop (pat.length - 1))
      else c :: pyReplaceAux pat rep fuel rest

/-- Python `s.replace(pat, rep)`: replace every non-overlapping occurrence,
left to right. -/
def pyReplace (s pat rep : List Char) : List Char :=
  if pat.isEmpty then s else pyReplaceAux pat rep s.length s

/-- Python `str.split()` (no argument): split on whitespace runs, no empty
tokens. -/
def splitWS (l : List Char) : List (List Char) :=
  (l.splitOnP fun c => isPySpace c).filter fun w => !w.isEmpty

namespace EmailEngine

/-- The pre-dedup candidate list built by `EmailEngine.generate`
(src/services/emails.py): strategy A (nickname), B (founder vanity URL for
level 1), C (standard corporate), in source order.  Python truthiness of the
name parts is modelled by comparison with the empty string (`None` and `""`
behave identically in every use here). -/
def buildOpts (first last nick domain : String) (level : Nat) : List String :=
  (if nick ≠ "" then
     (if last ≠ "" then [nick ++ "." ++ last ++ "@" ++ domain] else [])
       ++ [nick ++ "@" ++ domain]
   else [])
  ++ (if level = 1 ∧ first ≠ "" then [first ++ "@" ++ domain] else [])
  ++ (if first ≠ "" ∧ last ≠ "" then
        [first ++ "." ++ last ++ "@" ++ domain,
         (⟨first.data.take 1⟩ : String) ++ last ++ "@" ++ domain]
      else [])

/-- Model of the dict-based dedup: stable deduplication keeping the first
occurrence of each element (`seen` is the key set of the dict). -/
def dedupKeysAux (seen : List String) : List String → List String
  | [] => []
  | x :: xs =>
      if seen.contains x then dedupKeysAux seen xs
      else x :: dedupKeysAux (x :: seen) xs

/-- Model of the dict-based dedup of the candidate list. -/
def dedupKeys (l : List String) : List String := dedupKeysAux [] l

/-- Embeds `EmailEngine.generate` (src/services/emails.py).  Note the guard checks
only `if not domain:` — emptiness, nothing else. -/
def generate (first last nick domain : String) (level : Nat) : List String :=
  if domain = "" then [] else dedupKeys (buildOpts first last nick domain level)

end EmailEngine

namespace EmailGenService

/-- Content up to the closing `"` for the nickname capture
`re.search(r'\"(.*?)\"', clean)` (regex `.` does not cross a newline). -/
def takeTilQuote : List Char → Option (List Char)
  | [] => none
  | c :: rest =>
      if c == '"' then some []
      else if c == '\n' then none
      else (takeTilQuote rest).map fun g => c :: g

/-- First double-quoted span of the string, if any. -/
def findQuoted : List Char → Option (List Char)
  | [] => none
  | c :: rest =>
      if c == '"' then
        match takeTilQuote rest with
        | some g => some g
        | none => findQuoted rest
      else findQuoted rest

/-- Embeds `EmailGenService.generate` (main.py).  The name argument is modelled as a
string (the code applies `str(...)` to the cell value); after its own guard
and name parsing it assembles the same candidate block as `EmailEngine`,
which the embedding shares as `EmailEngine.buildOpts`/`dedupKeys`. -/
def generate (name : String) (domain : String) (rank : Nat) : List String :=
  if domain = "" ∨ domain = "unknown.com" then []
  else
    let clean0 := pyStrip (unidecodeList name.data)
    if clean0 = "-".data ∨ clean0 = "—".data ∨ clean0 = [] then []
    else
      let parsed : List Char × List Char :=
        match findQuoted clean0 with
        | some g =>
            ((pyLower g).filter (fun c => c != ' '),
             pyReplace (pyReplace clean0 ('"' :: (g ++ ['"'])) []) "  ".data " ".data)
        | none => ([], clean0)
      let parts := splitWS parsed.2
      let first : List Char := match parts with | [] => [] | p :: _ => pyLower p
      let last : List Char := if parts.length > 1 then pyLower (parts.getLastD []) else []
      EmailEngine.dedupKeys
        (EmailEngine.buildOpts ⟨first⟩ ⟨last⟩ ⟨parsed.1⟩ domain rank)

end EmailGenService

/-- The output record assembled per row by `Pipeline._worker`
(src/services/pipeline.py) and `ExecutiveProcessor.transform_row` (main.py).
The batch step reads only the level and company columns; the rest is carried
payload. -/
structure RowOut where
  name : String
  title : String
  company : String
  rank : Nat
  email1 : String
  email2 : String
  domain : String

/-- The key order of `results.sort_values(by=['Rank', 'Company'])`
(src/services/pipeline.py) and `by=['Seniority_Level', 'Company']`
(main.py): ascending numeric level, ties broken by ascending (alphabetical)
company string. -/
def keyLE (a b : RowOut) : Prop :=
  a.rank < b.rank ∨ (a.rank = b.rank ∧ a.company ≤ b.company)

instance : DecidableRel keyLE := fun a b => by
  unfold keyLE; infer_instance

instance : IsTotal RowOut keyLE where
  total a b := by
    rcases Nat.lt_trichotomy a.rank b.rank with h | h | h
    · exact Or.inl (Or.inl h)
    · rcases le_total a.company b.company with hc | hc
      · exact Or.inl (Or.inr ⟨h, hc⟩)
      · exact Or.inr (Or.inr ⟨h.symm, hc⟩)
    · exact Or.inr (Or.inl h)

instance : IsTrans RowOut keyLE where
  trans a b c hab hbc := by
    rcases hab with h1 | ⟨h1, h1c⟩ <;> rcases hbc with h2 | ⟨h2, h2c⟩
    · exact Or.inl (h1.trans h2)
    · exact Or.inl (h2 ▸ h1)
    · exact Or.inl (h1 ▸ h2)
    · exact Or.inr ⟨h1.trans h2, le_trans h1c h2c⟩

/-- The batch finalization of `Pipeline.run` / `PipelineContext.execute`:
`results.dropna()` (workers return `None` for excluded records), then a
multi-column `sort_values` — pandas sorts several columns with
`numpy.lexsort`, an indirect stable ascending sort, modelled by the stable
`List.insertionSort` — then `head(50)`. -/
def batchFinalize (results : List (Option RowOut)) : List RowOut :=
  (List.insertionSort keyLE (results.filterMap id)).take 50

end Exec

/-! ## Helper lemmas -/

namespace Exec

section Stability

variable {α : Type} (r : α → α → Prop) [DecidableRel r] (p : α → Bool)

theorem filter_orderedInsert_pos (a : α) (l : List α)
    (hp : ∀ b, p b = true → r a b) (ha : p a = true) :
    (List.orderedInsert r a l).filter p = a :: l.filter p := by
  induction l with
  | nil => simp [List.orderedInsert, ha]
  | cons b t ih =>
      rw [List.orderedInsert]
      by_cases h : r a b
      · simp [h, ha]
      · have hb : p b = false := by
          cases hpb : p b
          · rfl
          · exact absurd (hp b hpb) h
        simp [h, hb, ih]

theorem filter_orderedInsert_neg (a : α) (l : List α) (ha : p a = false) :
    (List.orderedInsert r a l).filter p = l.filter p := by
  induction l with
  | nil => simp [List.orderedInsert, ha]
  | cons b t ih =>
      rw [List.orderedInsert]
      by_cases h : r a b
      · simp [h, ha]
      · cases hb : p b <;> simp [h, hb, ih]

/-- Stability of insertion sort: elements picked out by a predicate that is
compatible with the order (any two selected elements are related both ways,
e.g. "has exactly this sort key") appear in the sorted list exactly in their
original relative order. -/
theorem filter_insertionSort (l : List α)
    (hp : ∀ x y, p x = true → p y = true → r x y) :
    (List.insertionSort r l).filter p = l.filter p := by
  induction l with
  | nil => rfl
  | cons a t ih =>
      rw [List.insertionSort]
      cases ha : p a
      · rw [filter_orderedInsert_neg r p a _ ha, ih, List.filter_cons_of_neg]
        simp [ha]
      · rw [filter_orderedInsert_pos r p a _ (fun b hb => hp a b ha hb) ha, ih,
          List.filter_cons_of_pos]
        simp [ha]

end Stability

theorem isWordChar_pyLowerChar (c : Char) : isWordChar (pyLowerChar c) = isWordChar c := by
  unfold pyLowerChar
  split <;> rfl

theorem isAlphanum_pyLowerChar (c : Char) : (pyLowerChar c).isAlphanum = c.isAlphanum := by
  unfold pyLowerChar
  split <;> rfl

/-- Appending a common suffix keeps strings of different lengths different. -/
theorem ne_append_right {a b : String} (d : String) (h : a.length ≠ b.length) :
    a ++ d ≠ b ++ d := by
  intro he
  have hl := congrArg String.length he
  rw [String.length_append, String.length_append] at hl
  exact h (Nat.add_right_cancel hl)

theorem dedupKeysAux_eq_self {seen l : List String}
    (hseen : ∀ x ∈ l, seen.contains x = false) (hl : l.Pairwise (· ≠ ·)) :
    EmailEngine.dedupKeysAux seen l = l := by
  induction l generalizing seen with
  | nil => rfl
  | cons x xs ih =>
      rw [EmailEngine.dedupKeysAux, hseen x (List.mem_cons_self x xs)]
      simp only [Bool.false_eq_true, if_false]
      congr 1
      refine ih (fun y hy => ?_) hl.of_cons
      have hne : ¬(x = y) := List.rel_of_pairwise_cons hl hy
      rw [List.contains_cons, Bool.or_eq_false_iff]
      exact ⟨beq_eq_false_iff_ne.mpr fun hyx => hne hyx.symm,
        hseen y (List.mem_cons_of_mem x hy)⟩

/-- Keep-first dedup returns a list without duplicates unchanged: a list without
duplicates is returned unchanged. -/
theorem dedupKeys_eq_self {l : List String} (hl : l.Pairwise (· ≠ ·)) :
    EmailEngine.dedupKeys l = l :=
  dedupKeysAux_eq_self (fun _ _ => rfl) hl

theorem mem_seen_not_mem_dedupKeysAux {seen l : List String} {y : String}
    (hy : y ∈ EmailEngine.dedupKeysAux seen l) : seen.contains y = false := by
  induction l generalizing seen with
  | nil => cases hy
  | cons x xs ih =>
      rw [EmailEngine.dedupKeysAux] at hy
      by_cases hx : seen.contains x
      · rw [hx] at hy
        simp only [if_true] at hy
        exact ih hy
      · rw [Bool.eq_false_iff.mpr hx] at hy
        simp only [Bool.false_eq_true, if_false] at hy
        rcases List.mem_cons.mp hy with rfl | hy'
        · exact Bool.eq_false_iff.mpr hx
        · have := ih hy'
          rw [List.contains_cons] at this
          exact (Bool.or_eq_false_iff.mp this).2

theorem nodup_dedupKeysAux (seen l : List String) :
    (EmailEngine.dedupKeysAux seen l).Nodup := by
  induction l generalizing seen with
  | nil => exact List.nodup_nil
  | cons x xs ih =>
      rw [EmailEngine.dedupKeysAux]
      by_cases hx : seen.contains x
      · rw [hx]; simpa using ih seen
      · rw [Bool.eq_false_iff.mpr hx]
        simp only [Bool.false_eq_true, if_false]
        refine List.nodup_cons.mpr ⟨fun hmem => ?_, ih (x :: seen)⟩
        have := mem_seen_not_mem_dedupKeysAux hmem
        simp [List.contains_cons] at this

theorem mem_dedupKeysAux {seen l : List String} {y : String} :
    y ∈ EmailEngine.dedupKeysAux seen l ↔ y ∈ l ∧ seen.contains y = false := by
  induction l generalizing seen with
  | nil => simp [EmailEngine.dedupKeysAux]
  | cons x xs ih =>
      rw [EmailEngine.dedupKeysAux]
      by_cases hx : seen.contains x
      · rw [hx]
        simp only [if_true, ih, List.mem_cons]
        constructor
        · exact fun ⟨hy, hs⟩ => ⟨Or.inr hy, hs⟩
        · rintro ⟨rfl | hy, hs⟩
          · rw [hx] at hs; cases hs
          · exact ⟨hy, hs⟩
      · rw [Bool.eq_false_iff.mpr hx]
        simp only [Bool.false_eq_true, if_false, List.mem_cons, ih, List.contains_cons]
        constructor
        · rintro (rfl | ⟨hy, hs⟩)
          · exact ⟨Or.inl rfl, Bool.eq_false_iff.mpr hx⟩
          · rcases Bool.or_eq_false_iff.mp hs with ⟨h1, h2⟩
            exact ⟨Or.inr hy, h2⟩
        · rintro ⟨rfl | hy, hs⟩
          · exact Or.inl rfl
          · by_cases hyx : y = x
            · exact Or.inl hyx
            · refine Or.inr ⟨hy, ?_⟩
              rw [Bool.or_eq_false_iff]
              exact ⟨by simpa using hyx, hs⟩

theorem mem_dedupKeys {l : List String} {y : String} :
    y ∈ EmailEngine.dedupKeys l ↔ y ∈ l := by
  rw [EmailEngine.dedupKeys, mem_dedupKeysAux]
  simp

/-- The `seen` accumulator acts as a set: only membership matters. -/
theorem dedupKeysAux_congr {seen1 seen2 : List String}
    (h : ∀ x, seen1.contains x = seen2.contains x) (l : List String) :
    EmailEngine.dedupKeysAux seen1 l = EmailEngine.dedupKeysAux seen2 l := by
  induction l generalizing seen1 seen2 with
  | nil => rfl
  | cons z zs ih =>
      rw [EmailEngine.dedupKeysAux, EmailEngine.dedupKeysAux, h z]
      by_cases hz : seen2.contains z
      · rw [hz]
        simp only [if_true]
        exact ih h
      · rw [Bool.eq_false_iff.mpr hz]
        simp only [Bool.false_eq_true, if_false]
        congr 1
        refine ih fun x => ?_
        rw [List.contains_cons, List.contains_cons, h x]

/-- The defining recursion of keep-first deduplication: the head stays in
place and all its later duplicates disappear. -/
theorem dedupKeysAux_filter (x : String) (seen xs : List String) :
    EmailEngine.dedupKeysAux (x :: seen) xs =
      EmailEngine.dedupKeysAux seen (xs.filter fun y => y != x) := by
  induction xs generalizing seen with
  | nil => rfl
  | cons z zs ih =>
      rw [EmailEngine.dedupKeysAux, List.filter_cons]
      by_cases hzx : z = x
      · have hc : (x :: seen).contains z = true := by
          simp [List.contains_cons, hzx]
        rw [hc]
        simp only [if_true]
        have h1 : (z != x) = false := by simpa using hzx
        rw [h1]
        simp only [Bool.false_eq_true, if_false]
        exact ih seen
      · have h1 : (z != x) = true := by simpa using hzx
        rw [h1]
        simp only [if_true]
        rw [EmailEngine.dedupKeysAux]
        have h2 : (x :: seen).contains z = seen.contains z := by
          simp [List.contains_cons, hzx]
        rw [h2]
        by_cases hz : seen.contains z
        · rw [hz]; simp only [if_true]; exact ih seen
        · rw [Bool.eq_false_iff.mpr hz]
          simp only [Bool.false_eq_true, if_false]
          rw [@dedupKeysAux_congr (z :: x :: seen) (x :: z :: seen)
              (fun y => by simp only [List.contains_cons]; exact Bool.or_left_comm _ _ _) zs]
          exact congrArg (List.cons z) (ih (z :: seen))

/-- Word boundaries inside the tail are unaffected by a non-word head. -/
theorem wordBoundary_cons {c : Char} (rest : List Char) (i : Nat)
    (hc : isWordChar c = false) :
    RankerEngine.wordBoundary (c :: rest) (i + 1) = RankerEngine.wordBoundary rest i := by
  unfold RankerEngine.wordBoundary
  cases i with
  | zero => simp [RankerEngine.optIsWord, hc]
  | succ j => simp [RankerEngine.optIsWord]

/-- A position with a word boundary lies inside the string. -/
theorem wordBoundary_le {t : List Char} {i : Nat}
    (h : RankerEngine.wordBoundary t i = true) : i < t.length + 1 := by
  by_contra hi
  push_neg at hi
  have h1 : t.get? i = none := List.get?_eq_none.mpr (by omega)
  have h2 : t.get? (i - 1) = none := List.get?_eq_none.mpr (by omega)
  rw [RankerEngine.wordBoundary, h1, h2] at h
  simp [RankerEngine.optIsWord] at h

/-- A string containing a word character has a word boundary (at the first
such character). -/
theorem exists_wordBoundary (t : List Char) (h : ∃ c ∈ t, isWordChar c = true) :
    ∃ i, i < t.length + 1 ∧ RankerEngine.wordBoundary t i = true := by
  induction t with
  | nil => simp at h
  | cons c rest ih =>
      cases hc : isWordChar c
      · have h' : ∃ d ∈ rest, isWordChar d = true := by
          obtain ⟨d, hd, hw⟩ := h
          rcases List.mem_cons.mp hd with rfl | hmem
          · rw [hc] at hw; cases hw
          · exact ⟨d, hmem, hw⟩
        obtain ⟨i, hi, hb⟩ := ih h'
        refine ⟨i + 1, by simpa using Nat.succ_lt_succ hi, ?_⟩
        rw [wordBoundary_cons rest i hc]
        exact hb
      · refine ⟨0, Nat.succ_pos _, ?_⟩
        simp [RankerEngine.wordBoundary, RankerEngine.optIsWord, hc]

/-- The pattern `\b()\b` built from an empty exclusion list matches exactly
the strings containing a word character. -/
theorem excludeSearch_nil (t : List Char) :
    RankerEngine.excludeSearch [] t = true ↔ ∃ c ∈ t, isWordChar c = true := by
  unfold RankerEngine.excludeSearch
  simp only [List.isEmpty_nil, if_true, List.any_eq_true, List.mem_range,
    List.mem_singleton]
  constructor
  · rintro ⟨i, hi, k, rfl, hk⟩
    simp only [List.isPrefixOf, Bool.true_and, List.length_nil, Nat.add_zero,
      Bool.and_self] at hk
    rw [RankerEngine.wordBoundary] at hk
    cases hA : t.get? i with
    | some d =>
        cases hd : isWordChar d
        · rw [hA] at hk
          simp only [RankerEngine.optIsWord, hd] at hk
          cases hB : t.get? (i - 1) with
          | some e =>
              rw [hB] at hk
              simp only [RankerEngine.optIsWord] at hk
              refine ⟨e, List.get?_mem hB, ?_⟩
              cases he : isWordChar e
              · rw [he] at hk; simp at hk
              · rfl
          | none =>
              rw [hB] at hk
              simp [RankerEngine.optIsWord] at hk
        · exact ⟨d, List.get?_mem hA, hd⟩
    | none =>
        rw [hA] at hk
        simp only [RankerEngine.optIsWord] at hk
        cases hB : t.get? (i - 1) with
        | some e =>
            rw [hB] at hk
            simp only [RankerEngine.optIsWord] at hk
            refine ⟨e, List.get?_mem hB, ?_⟩
            cases he : isWordChar e
            · rw [he] at hk; simp at hk
            · rfl
        | none =>
            rw [hB] at hk
            simp [RankerEngine.optIsWord] at hk
  · intro h
    obtain ⟨i, hi, hb⟩ := exists_wordBoundary t h
    refine ⟨i, hi, [], rfl, ?_⟩
    simp only [List.isPrefixOf, Bool.true_and, List.length_nil, Nat.add_zero]
    rw [hb]
    rfl

/-- In a list sorted ascending by level, `find?` returns a rule whose level
is minimal among all satisfying rules. -/
theorem find?_level_min {p : HierarchyRule → Bool} {l : List HierarchyRule}
    (hs : l.Sorted fun a b => a.level ≤ b.level) {r : HierarchyRule}
    (hf : l.find? p = some r) : ∀ x ∈ l, p x = true → r.level ≤ x.level := by
  induction l with
  | nil => cases hf
  | cons a t ih =>
      rw [List.sorted_cons] at hs
      by_cases hpa : p a
      · rw [List.find?_cons_of_pos t hpa] at hf
        cases hf
        intro x hx hpx
        rcases List.mem_cons.mp hx with rfl | hx'
        · exact le_refl _
        · exact hs.1 x hx'
      · rw [List.find?_cons_of_neg t (by simpa using hpa)] at hf
        intro x hx hpx
        rcases List.mem_cons.mp hx with rfl | hx'
        · exact absurd hpx (by simpa using hpa)
        · exact ih hs.2 hf x hx' hpx

instance : IsTotal HierarchyRule fun a b => a.level ≤ b.level :=
  ⟨fun a b => Nat.le_total a.level b.level⟩

instance : IsTrans HierarchyRule fun a b => a.level ≤ b.level :=
  ⟨fun _ _ _ => Nat.le_trans⟩

theorem mem_sortRules {x : HierarchyRule} {rules : List HierarchyRule} :
    x ∈ sortRules rules ↔ x ∈ rules :=
  List.mem_insertionSort _

theorem sorted_sortRules (rules : List HierarchyRule) :
    (sortRules rules).Sorted fun a b => a.level ≤ b.level :=
  List.sorted_insertionSort _ rules

/-- The hierarchy scan shared by both ranker implementations: over the rules
sorted ascending by level, `find?` returns nothing when no rule matches the
text, and otherwise returns a matching rule of minimal level. -/
theorem find?_sortRules_spec (rules : List HierarchyRule) (t : List Char) :
    ((∀ r ∈ rules, ruleMatches t r = false) →
      (sortRules rules).find? (ruleMatches t) = none) ∧
    (∀ r ∈ rules, ruleMatches t r = true →
      ∃ r0 ∈ rules, ruleMatches t r0 = true ∧
        (sortRules rules).find? (ruleMatches t) = some r0 ∧
        r0.level ≤ r.level) := by
  constructor
  · intro hnone
    rw [List.find?_eq_none]
    intro x hmem
    simp [hnone x (mem_sortRules.mp hmem)]
  · intro r hr hmr
    have hsome : ((sortRules rules).find? (ruleMatches t)).isSome := by
      rw [List.find?_isSome]
      exact ⟨r, mem_sortRules.mpr hr, hmr⟩
    obtain ⟨r0, hf⟩ := Option.isSome_iff_exists.mp hsome
    exact ⟨r0, mem_sortRules.mp (List.mem_of_find?_eq_some hf),
      List.find?_some hf, hf,
      find?_level_min (sorted_sortRules rules) hf r (mem_sortRules.mpr hr) hmr⟩

end Exec

/-! ## Claims -/

open Exec

/-- C8: the spec says `sanitize` returns the empty string for the em-dash
placeholder, but the placeholder list in src/utils.py contains the mojibake
string "â€”" rather than a real em-dash, so an em-dash input slips past the
check and is transliterated by unidecode to `"--"`.  The remaining conjuncts
evaluate the cases the spec does get right: absent input, `"-"`,
whitespace-only input, and diacritic folding with trimming. -/
theorem c8_sanitize_emdash_not_empty :
    StringUtils.sanitize (some "—") = "--" ∧ ("--" : String) ≠ "" ∧
    StringUtils.sanitize none = "" ∧
    StringUtils.sanitize (some "-") = "" ∧
    StringUtils.sanitize (some "   ") = "" ∧
    StringUtils.sanitize (some "â€”") = "" ∧
    StringUtils.sanitize (some " é ") = "e" :=
  ⟨by decide, by decide, rfl, by decide, by decide, by decide, by decide⟩

/-- C10: a `RankerEngine` built with an empty exclusion list compiles the
pattern `\b()\b`, which matches exactly the strings containing a word
character; consequently `assess_seniority` returns the excluded sentinel 999
on every title containing a letter or digit, whatever the hierarchy rules. -/
theorem c10_empty_exclusions_exclude_all :
    (∀ t : List Char,
      RankerEngine.excludeSearch [] t = true ↔ ∃ c ∈ t, isWordChar c = true) ∧
    (∀ (rules : List HierarchyRule) (title : String),
      (∃ c ∈ title.data, c.isAlphanum = true) →
      RankerEngine.assess_seniority rules [] title = 999) := by
  refine ⟨excludeSearch_nil, ?_⟩
  intro rules title h
  obtain ⟨c, hc, hw⟩ := h
  have hx : RankerEngine.excludeSearch [] (pyLower title.data) = true := by
    rw [excludeSearch_nil]
    refine ⟨pyLowerChar c, List.mem_map_of_mem _ hc, ?_⟩
    rw [isWordChar_pyLowerChar]
    simp [isWordChar, hw]
  simp only [RankerEngine.assess_seniority]
  rw [hx]
  simp

/-- Witness for C10: a concrete title with a letter is excluded under an
empty exclusion list even though a hierarchy rule matches it. -/
theorem c10_witness :
    RankerEngine.assess_seniority [⟨1, "Strategic", ["chief"]⟩] [] "chief" = 999 :=
  c10_empty_exclusions_exclude_all.2 [⟨1, "Strategic", ["chief"]⟩] "chief"
    ⟨'c', by decide, by decide⟩

/-- C1 (counterexample): a title containing an exclusion keyword as a
substring — but not as a whole word — is NOT excluded by
`RankerEngine.assess_seniority` (word-boundary regex), which returns the
hierarchy tier 1 instead of 999; `RankerService.get_rank` (plain substring)
does return 999 on the same input. -/
theorem c1_counterexample :
    substrIn "lead".data (pyLower "chief leader".data) = true ∧
    RankerEngine.assess_seniority [⟨1, "Strategic", ["chief"]⟩] ["lead"]
      "chief leader" = 1 ∧
    RankerService.get_rank [⟨1, "Strategic", ["chief"]⟩] ["lead"]
      (some "chief leader") = 999 :=
  ⟨by decide, by decide, by decide⟩

/-- C1 (amended): `RankerService.get_rank` returns 999 whenever a lowercased
exclusion keyword occurs as a substring of the lowercased stripped title;
`RankerEngine.assess_seniority` returns 999 whenever an exclusion keyword
occurs delimited by word boundaries.  A keyword occurring only inside a
longer word excludes under the service but not under the engine. -/
theorem c1_exclusion_matching :
    (∀ (rules : List HierarchyRule) (excl : List String) (title : String),
      (∃ k ∈ excl, substrIn (pyLower k.data) (pyStrip (pyLower title.data)) = true) →
      RankerService.get_rank rules excl (some title) = 999) ∧
    (∀ (rules : List HierarchyRule) (excl : List String) (title : String),
      (∃ k ∈ excl, ∃ i,
        (pyLower k.data).isPrefixOf ((pyLower title.data).drop i) = true ∧
        RankerEngine.wordBoundary (pyLower title.data) i = true ∧
        RankerEngine.wordBoundary (pyLower title.data)
          (i + (pyLower k.data).length) = true) →
      RankerEngine.assess_seniority rules excl title = 999) := by
  constructor
  · intro rules excl title h
    obtain ⟨k, hk, hsub⟩ := h
    have hany : ((excl.map fun k => pyLower k.data).any
        fun e => substrIn e (pyStrip (pyLower title.data))) = true := by
      rw [List.any_eq_true]
      exact ⟨pyLower k.data, List.mem_map_of_mem _ hk, hsub⟩
    simp only [RankerService.get_rank]
    rw [hany]
    simp
  · intro rules excl title h
    obtain ⟨k, hk, i, hpre, hb1, hb2⟩ := h
    have hx : RankerEngine.excludeSearch excl (pyLower title.data) = true := by
      have hEmpty : excl.isEmpty = false := by
        cases excl with
        | nil => cases hk
        | cons a t => rfl
      rw [RankerEngine.excludeSearch, hEmpty]
      simp only [Bool.false_eq_true, if_false]
      rw [List.any_eq_true]
      refine ⟨i, List.mem_range.mpr (wordBoundary_le hb1), ?_⟩
      rw [List.any_eq_true]
      refine ⟨pyLower k.data, List.mem_map_of_mem _ hk, ?_⟩
      rw [hpre, hb1, hb2]
      rfl
    simp only [RankerEngine.assess_seniority]
    rw [hx]
    simp

/-- Witness for C1 (amended): a title carrying the whole word "manager" is
excluded by both implementations. -/
theorem c1_witness :
    RankerService.get_rank [⟨1, "Strategic", ["chief"]⟩] ["manager"]
        (some "Senior Manager") = 999 ∧
    RankerEngine.assess_seniority [⟨1, "Strategic", ["chief"]⟩] ["manager"]
        "Senior Manager" = 999 :=
  ⟨c1_exclusion_matching.1 [⟨1, "Strategic", ["chief"]⟩] ["manager"] "Senior Manager"
      ⟨"manager", by decide, by decide⟩,
    c1_exclusion_matching.2 [⟨1, "Strategic", ["chief"]⟩] ["manager"] "Senior Manager"
      ⟨"manager", by decide, 7, by decide, by decide, by decide⟩⟩

/-- C9 (counterexample): the two ranking implementations are not equivalent:
on the title "head managers" with exclusion keyword "manager" and a level-2
rule keyed on "head", the engine (word-boundary exclusion) ranks the title
at tier 2 while the service (substring exclusion) excludes it with 999. -/
theorem c9_counterexample :
    RankerEngine.assess_seniority [⟨2, "Executive", ["head"]⟩] ["manager"]
      "head managers" = 2 ∧
    RankerService.get_rank [⟨2, "Executive", ["head"]⟩] ["manager"]
      (some "head managers") = 999 ∧
    (2 : Nat) ≠ 999 :=
  ⟨by decide, by decide, by decide⟩

/-- C9 (amended): the two implementations agree on every title that carries
no surrounding whitespace and on which word-boundary exclusion search and
substring exclusion search agree; the counterexample shows they differ when
an exclusion keyword occurs only inside a longer word. -/
theorem c9_agreement_under_matching_agreement :
    ∀ (rules : List HierarchyRule) (excl : List String) (title : String),
      pyStrip (pyLower title.data) = pyLower title.data →
      RankerEngine.excludeSearch excl (pyLower title.data) =
        ((excl.map fun k => pyLower k.data).any
          fun e => substrIn e (pyLower title.data)) →
      RankerEngine.assess_seniority rules excl title =
        RankerService.get_rank rules excl (some title) := by
  intro rules excl title h1 h2
  simp only [RankerEngine.assess_seniority, RankerService.get_rank]
  rw [h1, h2]

/-- Witness for C9 (amended): on a clean title both implementations return
tier 1. -/
theorem c9_witness :
    RankerEngine.assess_seniority [⟨1, "Strategic", ["chief"]⟩] ["manager"]
        "chief of staff" =
      RankerService.get_rank [⟨1, "Strategic", ["chief"]⟩] ["manager"]
        (some "chief of staff") :=
  c9_agreement_under_matching_agreement [⟨1, "Strategic", ["chief"]⟩] ["manager"]
    "chief of staff" (by decide) (by decide)

/-- C2 (counterexample): with mapping `{"Acme Corp": "TODO_FILL.com"}`,
`DomainResolver.resolve "Acme Corp"` does not run the unmapped-company
heuristic (which would yield "acme.com", third conjunct): it returns the
lowercased space-stripped name "acmecorp.com". -/
theorem c2_counterexample :
    DomainResolver.resolve [("Acme Corp", "TODO_FILL.com")] (some "Acme Corp")
        = "acmecorp.com" ∧
    ("acmecorp.com" : String) ≠ "acme.com" ∧
    DomainResolver.heuristic (StringUtils.sanitize (some "Acme Corp")) = "acme.com" :=
  ⟨by decide, by decide, by decide⟩

/-- C2 (amended): when the normalized company is a mapping key whose value
contains "TODO", `DomainResolver.resolve` ignores the mapped value but does
NOT fall through to the unmapped-company heuristic: it returns the
normalized name lowercased with spaces removed plus ".com"
(`todoFallback`); `DomainService.resolve` in main.py performs no TODO check
at all and returns the mapped value unchanged. -/
theorem c2_todo_mapping_behavior :
    (∀ (mappings : List (String × String)) (company : Option String) (val : String),
      lookupMap mappings (StringUtils.sanitize company) = some val →
      substrIn "TODO".data val.data = true →
      DomainResolver.resolve mappings company =
        DomainResolver.todoFallback (StringUtils.sanitize company)) ∧
    (∀ (mappings : List (String × String)) (s : String) (val : String),
      lookupMap mappings ⟨pyStrip (unidecodeList s.data)⟩ = some val →
      DomainService.resolve mappings (some s) = val) := by
  constructor
  · intro mappings company val hlook htodo
    simp only [DomainResolver.resolve]
    rw [hlook]
    simp [htodo]
  · intro mappings s val hlook
    simp only [DomainService.resolve]
    rw [hlook]

/-- Witness for C2 (amended): both branches evaluated at concrete mappings. -/
theorem c2_witness :
    DomainResolver.resolve [("Beta Corp", "TODO.com")] (some "Beta Corp") =
      DomainResolver.todoFallback (StringUtils.sanitize (some "Beta Corp")) ∧
    DomainService.resolve [("Acme Corp", "TODO_FILL.com")] (some "Acme Corp") =
      "TODO_FILL.com" :=
  ⟨c2_todo_mapping_behavior.1 [("Beta Corp", "TODO.com")] (some "Beta Corp")
      "TODO.com" (by decide) (by decide),
    c2_todo_mapping_behavior.2 [("Acme Corp", "TODO_FILL.com")] "Acme Corp"
      "TODO_FILL.com" (by decide)⟩

/-- C3 (counterexample): `EmailEngine.generate` (src/services/emails.py)
checks only for an empty domain, not for the sentinel "unknown.com": at the
sentinel it still produces the full candidate list. -/
theorem c3_counterexample :
    EmailEngine.generate "jen" "johnson" "jj" "unknown.com" 1 =
      ["jj.johnson@unknown.com", "jj@unknown.com", "jen@unknown.com",
       "jen.johnson@unknown.com", "jjohnson@unknown.com"] := by decide

/-- C3 (amended): `EmailGenService.generate` (main.py) returns the empty
sequence for an empty domain or the sentinel "unknown.com";
`EmailEngine.generate` (src/services/emails.py) returns the empty sequence
only for the empty domain. -/
theorem c3_empty_domain_guards :
    (∀ (first last nick : String) (level : Nat),
      EmailEngine.generate first last nick "" level = []) ∧
    (∀ (name : String) (rank : Nat),
      EmailGenService.generate name "" rank = [] ∧
      EmailGenService.generate name "unknown.com" rank = []) := by
  constructor
  · intro first last nick level
    simp [EmailEngine.generate]
  · intro name rank
    constructor <;> simp [EmailGenService.generate]

/-- C4 (counterexample): for absent (NaN) company input,
`DomainResolver.resolve` does not return the sentinel "unknown.com": the
empty normalized name falls through the heuristic and yields ".com". -/
theorem c4_counterexample :
    DomainResolver.resolve [] none = ".com" ∧ (".com" : String) ≠ "unknown.com" :=
  ⟨by decide, by decide⟩

/-- C4 (amended): no absent/empty/placeholder company input raises (the
model is total); `DomainService.resolve` returns the sentinel "unknown.com"
for null/NaN input only, while `DomainResolver.resolve` maps null/NaN,
placeholder and whitespace-only companies — and `DomainService.resolve`
the empty string — to the degenerate heuristic result ".com" (when the
empty string is not itself a mapping key). -/
theorem c4_absent_company_sentinel :
    (∀ mappings : List (String × String),
      DomainService.resolve mappings none = "unknown.com") ∧
    (∀ mappings : List (String × String),
      lookupMap mappings "" = none →
      DomainResolver.resolve mappings none = ".com" ∧
      DomainResolver.resolve mappings (some "-") = ".com" ∧
      DomainResolver.resolve mappings (some "   ") = ".com" ∧
      DomainService.resolve mappings (some "") = ".com") := by
  refine ⟨fun _ => rfl, ?_⟩
  intro mappings h
  refine ⟨?_, ?_, ?_, ?_⟩
  · simp only [DomainResolver.resolve, StringUtils.sanitize]
    rw [h]
    decide
  · have hs : StringUtils.sanitize (some "-") = "" := by decide
    simp only [DomainResolver.resolve]
    rw [hs, h]
    decide
  · have hs : StringUtils.sanitize (some "   ") = "" := by decide
    simp only [DomainResolver.resolve]
    rw [hs, h]
    decide
  · have he : (⟨pyStrip (unidecodeList "".data)⟩ : String) = "" := rfl
    simp only [DomainService.resolve]
    rw [he, h]
    decide

/-- Witness for C4 (amended): evaluated at a concrete mapping table that
does not contain the empty string as a key. -/
theorem c4_witness :
    DomainService.resolve [("IBM", "ibm.com")] none = "unknown.com" ∧
    DomainResolver.resolve [("IBM", "ibm.com")] none = ".com" :=
  ⟨(c4_absent_company_sentinel.1 [("IBM", "ibm.com")]),
    (c4_absent_company_sentinel.2 [("IBM", "ibm.com")] (by decide)).1⟩

/-- C5: the batch step keeps exactly the non-excluded records (workers
return `none` for excluded rows, `dropna` removes them), sorts them
ascending by the pair (seniority level, company) with a stable sort —
ties, i.e. records with identical sort keys, stay in input order — and
emits exactly the first 50 records of the sorted sequence (all of them
when fewer qualify, by the semantics of `take`). -/
theorem c5_batch_sort_truncate :
    ∀ results : List (Option RowOut),
      batchFinalize results =
        (List.insertionSort keyLE (results.filterMap id)).take 50 ∧
      (List.insertionSort keyLE (results.filterMap id)).Sorted keyLE ∧
      (List.insertionSort keyLE (results.filterMap id)).Perm (results.filterMap id) ∧
      ∀ (lv : Nat) (co : String),
        ((List.insertionSort keyLE (results.filterMap id)).filter
            fun x => x.rank == lv && x.company == co) =
          ((results.filterMap id).filter fun x => x.rank == lv && x.company == co) := by
  intro results
  refine ⟨rfl, List.sorted_insertionSort keyLE _, List.perm_insertionSort keyLE _, ?_⟩
  intro lv co
  refine filter_insertionSort keyLE _ _ ?_
  intro x y hx hy
  rw [Bool.and_eq_true, beq_iff_eq, beq_iff_eq] at hx hy
  exact Or.inr ⟨hx.1.trans hy.1.symm, by rw [hx.2, hy.2]⟩

/-- C6: for first "jen", last "johnson", nickname "jj" and tier 1, the
generator emits exactly the five candidates in strategy order for every
non-empty domain; and in general the output of `generate` is the candidate
list deduplicated keeping each string's first occurrence (no duplicates,
same members, and the head of the pre-dedup list stays in place while its
later duplicates disappear). -/
theorem c6_candidate_order_and_dedup :
    (∀ domain : String, domain ≠ "" →
      EmailEngine.generate "jen" "johnson" "jj" domain 1 =
        ["jj.johnson@" ++ domain, "jj@" ++ domain, "jen@" ++ domain,
         "jen.johnson@" ++ domain, "jjohnson@" ++ domain]) ∧
    (∀ (first last nick domain : String) (level : Nat),
      (EmailEngine.generate first last nick domain level).Nodup) ∧
    (∀ (first last nick domain : String) (level : Nat) (x : String),
      x ∈ EmailEngine.generate first last nick domain level ↔
        domain ≠ "" ∧ x ∈ EmailEngine.buildOpts first last nick domain level) ∧
    (∀ (x : String) (xs : List String),
      EmailEngine.dedupKeys (x :: xs) =
        x :: EmailEngine.dedupKeys (xs.filter fun y => y != x)) := by
  refine ⟨?_, ?_, ?_, ?_⟩
  · intro domain hd
    have e1 : ((("jj" : String) ++ ".") ++ "johnson") ++ "@" = "jj.johnson@" := by decide
    have e2 : ("jj" : String) ++ "@" = "jj@" := by decide
    have e3 : ("jen" : String) ++ "@" = "jen@" := by decide
    have e4 : ((("jen" : String) ++ ".") ++ "johnson") ++ "@" = "jen.johnson@" := by
      decide
    have e5 : ((⟨("jen" : String).data.take 1⟩ : String) ++ "johnson") ++ "@"
        = "jjohnson@" := by decide
    rw [EmailEngine.generate, if_neg hd, EmailEngine.buildOpts,
      if_pos (show ("jj" : String) ≠ "" by decide),
      if_pos (show ("johnson" : String) ≠ "" by decide),
      if_pos (show (1 = 1 ∧ ("jen" : String) ≠ "") from ⟨rfl, by decide⟩),
      if_pos (show (("jen" : String) ≠ "" ∧ ("johnson" : String) ≠ "") from
        ⟨by decide, by decide⟩)]
    simp only [List.singleton_append, List.cons_append, List.nil_append]
    rw [e1, e2, e3, e4, e5]
    have hm : (["jj.johnson@" ++ domain, "jj@" ++ domain, "jen@" ++ domain,
        "jen.johnson@" ++ domain, "jjohnson@" ++ domain] : List String) =
        List.map (fun p => p ++ domain)
          ["jj.johnson@", "jj@", "jen@", "jen.johnson@", "jjohnson@"] := rfl
    rw [hm]
    refine dedupKeys_eq_self (List.pairwise_map.mpr ?_)
    have hlen : List.Pairwise (fun a b : String => a.length ≠ b.length)
        ["jj.johnson@", "jj@", "jen@", "jen.johnson@", "jjohnson@"] := by decide
    exact hlen.imp fun h => ne_append_right domain h
  · intro first last nick domain level
    by_cases hd : domain = ""
    · simp [EmailEngine.generate, hd]
    · rw [EmailEngine.generate, if_neg hd]
      exact nodup_dedupKeysAux [] _
  · intro first last nick domain level x
    by_cases hd : domain = ""
    · subst hd
      simp [EmailEngine.generate]
    · rw [EmailEngine.generate, if_neg hd, mem_dedupKeys]
      simp [hd]
  · intro x xs
    have h0 : ([] : List String).contains x = false := rfl
    rw [EmailEngine.dedupKeys, EmailEngine.dedupKeys, EmailEngine.dedupKeysAux, h0]
    simp only [Bool.false_eq_true, if_false]
    exact congrArg (List.cons x) (dedupKeysAux_filter x [] xs)

/-- Witness for C6: the five candidates at a concrete domain. -/
theorem c6_witness :
    EmailEngine.generate "jen" "johnson" "jj" "x.com" 1 =
      ["jj.johnson@" ++ "x.com", "jj@" ++ "x.com", "jen@" ++ "x.com",
       "jen.johnson@" ++ "x.com", "jjohnson@" ++ "x.com"] :=
  c6_candidate_order_and_dedup.1 "x.com" (by decide)

/-- C7: on a title matching no exclusion, both seniority implementations —
`RankerEngine.assess_seniority` (src/services/ranker.py, exclusion checked
by word-boundary regex, title lowercased) and `RankerService.get_rank`
(main.py, exclusion checked by substring, title lowercased and stripped) —
scan the rules sorted ascending by level and return the level of the first
matching rule, which is minimal among the levels of all matching rules, so
a title matching two tiers gets the numerically lower one; when no rule
matches they return the excluded sentinel 999, not an error. -/
theorem c7_first_matching_rule_wins :
    (∀ (rules : List HierarchyRule) (excl : List String) (title : String),
      RankerEngine.excludeSearch excl (pyLower title.data) = false →
      ((∀ r ∈ rules, ruleMatches (pyLower title.data) r = false) →
        RankerEngine.assess_seniority rules excl title = 999) ∧
      (∀ r ∈ rules, ruleMatches (pyLower title.data) r = true →
        ∃ r0 ∈ rules, ruleMatches (pyLower title.data) r0 = true ∧
          RankerEngine.assess_seniority rules excl title = r0.level ∧
          r0.level ≤ r.level)) ∧
    (∀ (rules : List HierarchyRule) (excl : List String) (title : String),
      ((excl.map fun k => pyLower k.data).any
          fun e => substrIn e (pyStrip (pyLower title.data))) = false →
      ((∀ r ∈ rules, ruleMatches (pyStrip (pyLower title.data)) r = false) →
        RankerService.get_rank rules excl (some title) = 999) ∧
      (∀ r ∈ rules, ruleMatches (pyStrip (pyLower title.data)) r = true →
        ∃ r0 ∈ rules, ruleMatches (pyStrip (pyLower title.data)) r0 = true ∧
          RankerService.get_rank rules excl (some title) = r0.level ∧
          r0.level ≤ r.level)) := by
  constructor
  · intro rules excl title hx
    obtain ⟨hnone, hmin⟩ := find?_sortRules_spec rules (pyLower title.data)
    constructor
    · intro hno
      simp only [RankerEngine.assess_seniority]
      rw [hx]
      simp only [Bool.false_eq_true, if_false]
      rw [hnone hno]
    · intro r hr hmr
      obtain ⟨r0, hr0, hm0, hf, hle⟩ := hmin r hr hmr
      refine ⟨r0, hr0, hm0, ?_, hle⟩
      simp only [RankerEngine.assess_seniority]
      rw [hx]
      simp only [Bool.false_eq_true, if_false]
      rw [hf]
  · intro rules excl title hx
    obtain ⟨hnone, hmin⟩ := find?_sortRules_spec rules (pyStrip (pyLower title.data))
    constructor
    · intro hno
      simp only [RankerService.get_rank]
      rw [hx]
      simp only [Bool.false_eq_true, if_false]
      rw [hnone hno]
    · intro r hr hmr
      obtain ⟨r0, hr0, hm0, hf, hle⟩ := hmin r hr hmr
      refine ⟨r0, hr0, hm0, ?_, hle⟩
      simp only [RankerService.get_rank]
      rw [hx]
      simp only [Bool.false_eq_true, if_false]
      rw [hf]

/-- Witness for C7: a title matching a level-3 and a level-2 rule is
assigned level 2 by both implementations. -/
theorem c7_witness :
    (∃ r0 ∈ [(⟨3, "Senior", ["vp"]⟩ : HierarchyRule), ⟨2, "Executive", ["head"]⟩],
      ruleMatches (pyLower "head vp".data) r0 = true ∧
      RankerEngine.assess_seniority
        [⟨3, "Senior", ["vp"]⟩, ⟨2, "Executive", ["head"]⟩] ["manager"] "head vp" =
        r0.level ∧
      r0.level ≤ (⟨3, "Senior", ["vp"]⟩ : HierarchyRule).level) ∧
    (∃ r0 ∈ [(⟨3, "Senior", ["vp"]⟩ : HierarchyRule), ⟨2, "Executive", ["head"]⟩],
      ruleMatches (pyStrip (pyLower "head vp".data)) r0 = true ∧
      RankerService.get_rank
        [⟨3, "Senior", ["vp"]⟩, ⟨2, "Executive", ["head"]⟩] ["manager"]
        (some "head vp") = r0.level ∧
      r0.level ≤ (⟨3, "Senior", ["vp"]⟩ : HierarchyRule).level) :=
  ⟨(c7_first_matching_rule_wins.1 [⟨3, "Senior", ["vp"]⟩, ⟨2, "Executive", ["head"]⟩]
        ["manager"] "head vp" (by decide)).2 ⟨3, "Senior", ["vp"]⟩
      (List.mem_cons_self _ _) (by decide),
    (c7_first_matching_rule_wins.2 [⟨3, "Senior", ["vp"]⟩, ⟨2, "Executive", ["head"]⟩]
        ["manager"] "head vp" (by decide)).2 ⟨3, "Senior", ["vp"]⟩
      (List.mem_cons_self _ _) (by decide)⟩

